import Mathlib

/-!
# Verification of `get_user_headers.py`

A shallow embedding of the header-acquisition-and-cache subsystem of
`get_user_headers.py`, together with proofs of the behavioural properties
claimed in its specification.

Header names are modelled as lists of character codes (`List Nat`), so the
ASCII case transformations performed by the Python code (`str.lower()`,
`str.title()`, SQLite's `COLLATE NOCASE`) become plain arithmetic on `Nat`.
Python dictionaries are modelled as association lists built in insertion
order with last-writer-wins updates, exactly mirroring dict-comprehension
semantics.  The SQLite table `user_headers` is modelled as a list of rows,
with `INSERT OR REPLACE` under the unique index `(py_version, key NOCASE)`
modelled as delete-conflicting-rows-then-append.
-/

namespace GetUserHeaders

/-- A header name: the list of character codes of the Python string. -/
abbrev HName := List Nat

/-- Character codes of a Lean string literal, used to write concrete header
names compactly. -/
def S (s : String) : HName := s.data.map Char.toNat

/-- Python str.lower() on a single character code, restricted to ASCII: maps
`A`–`Z` (65–90) to `a`–`z` (97–122) and leaves everything else unchanged.
This agrees with Python's `str.lower` and with SQLite's `NOCASE` collation
on the ASCII header names the program manipulates. -/
def pyLowerChar (c : Nat) : Nat := if 65 ≤ c ∧ c ≤ 90 then c + 32 else c

/-- Python str.upper()-style transform on a single ASCII character code. -/
def pyUpperChar (c : Nat) : Nat := if 97 ≤ c ∧ c ≤ 122 then c - 32 else c

/-- Whether an ASCII character code is cased (a letter); `str.title()` uses
this to decide word boundaries. -/
def isCasedChar (c : Nat) : Bool := decide ((65 ≤ c ∧ c ≤ 90) ∨ (97 ≤ c ∧ c ≤ 122))

/-- Python str.lower() on a header name. -/
def pyLower (s : HName) : HName := s.map pyLowerChar

/-- One character of str.title(): a character after a letter is lowercased,
a character after a non-letter is uppercased (CPython's ASCII titlecasing). -/
def pyTitleChar : Bool → Nat → Nat
  | true, c => pyLowerChar c
  | false, c => pyUpperChar c

/-- Worker for str.title(): `prevCased` records whether the previous
character was a letter. -/
def pyTitleAux : Bool → HName → HName
  | _, [] => []
  | prevCased, c :: rest => pyTitleChar prevCased c :: pyTitleAux (isCasedChar c) rest

/-- Python str.title() on a header name. -/
def pyTitle (s : HName) : HName := pyTitleAux false s

/-- The table `UserHeaderGetter.safe_headers`: headers which should have a null or
desired effect on returned content. -/
def safeHeaders : List HName :=
  [S "Accept", S "Accept-Charset", S "Accept-Language", S "DNT", S "From",
   S "User-Agent", S "X-ATT-Deviceid", S "X-Wap-Profile"]

/-- The table of headers which must never be retrieved for safety reasons
(the source calls it unsafe_headers). -/
def unsafeHeaders : List HName :=
  [S "Authorization", S "Cookie", S "Cookie2", S "X-Csrf-Token",
   S "X-CSRFToken", S "X-UIDH", S "X-XSRF-TOKEN", S "Proxy-Authorization",
   S "Content-Encoding", S "Content-Language", S "Content-Length",
   S "Content-Location", S "Content-MD5", S "Content-Range",
   S "Content-Type", S "Date", S "Expect", S "Expires", S "Front-End-Https",
   S "Host", S "If-Match", S "If-Modified-Since", S "If-None-Match",
   S "If-Range", S "If-Unmodified-Since", S "Last-Modified", S "Origin",
   S "Range", S "Referer", S "TE", S "Transfer-Encoding", S "Upgrade",
   S "X-Forwarded-Host", S "X-Forwarded-Proto", S "X-Http-Method-Override",
   S "X-ProxyUser-Ip", S "X-Requested-With"]

/-- The table `UserHeaderGetter.known_headers`: canonical capitalizations used for
normalization — the union of safe and unsafe headers plus the extra
recognized names. -/
def knownHeaders : List HName :=
  safeHeaders ++ unsafeHeaders ++
  [S "Accept-Encoding", S "Accept-Datetime", S "Cache-Control",
   S "Connection", S "Pragma", S "Proxy-Connection", S "DPR", S "Width",
   S "Viewport-Width", S "Downling", S "Save-Data", S "Forwarded",
   S "Max-Forwards", S "Trailer", S "Via", S "Warning", S "X-Forwarded-For"]

/-- A header set: a Python `dict` mapping header names to opaque string
values, modelled as an association list in insertion order with unique
keys maintained by `dictInsert`. -/
abbrev HeaderSet := List (HName × String)

/-- The keys of a header set, in order. -/
def keysOf (h : HeaderSet) : List HName := h.map Prod.fst

/-- Insertion into a Python dict: an existing key keeps its position and has
its value overwritten; a new key is appended. -/
def dictInsert (m : HeaderSet) (k : HName) (v : String) : HeaderSet :=
  if k ∈ keysOf m then m.map (fun p => if p.1 = k then (p.1, v) else p)
  else m ++ [(k, v)]

/-- Building a Python dict from a sequence of key/value pairs (the semantics
of a dict comprehension or of `dict(list_of_pairs)`): pairs are inserted in
order, the last writer for a key wins. -/
def dictOfPairs (l : List (HName × String)) : HeaderSet :=
  l.foldl (fun m p => dictInsert m p.1 p.2) []

/-- Association lookup used for the `known` dict inside
`normalize_header_names`. -/
def alookup : List (HName × HName) → HName → Option HName
  | [], _ => none
  | (k, v) :: rest, q => if k = q then some v else alookup rest q

/-- The dict `{x.lower(): x for x in self.known_headers}` built by
`normalize_header_names` (well defined as a mapping because no two known
headers agree case-insensitively; see `knownHeaders_lower_nodup`). -/
def knownLowerMap : List (HName × HName) := knownHeaders.map (fun x => (pyLower x, x))

/-- Normalization of a single header name:
`known.get(x.lower(), x.title())`. -/
def normKey (k : HName) : HName :=
  match alookup knownLowerMap (pyLower k) with
  | some c => c
  | none => pyTitle k

/-- The method `UserHeaderGetter.normalize_header_names`: the dict comprehension
`{known.get(x.lower(), x.title()): y for x, y in headers.items()}`. -/
def normalize_header_names (h : HeaderSet) : HeaderSet :=
  dictOfPairs (h.map (fun p => (normKey p.1, p.2)))

/-- The filtering step of `get_all`:
`{k: v for k, v in normalize(headers).items() if k not in unsafe_headers}`. -/
def get_all_filter (h : HeaderSet) : HeaderSet :=
  (normalize_header_names h).filter (fun p => decide (p.1 ∉ unsafeHeaders))

/-- The filtering step of `get_safe`:
`{k: v for k, v in normalize(headers).items() if k in safe_headers}`. -/
def get_safe_filter (h : HeaderSet) : HeaderSet :=
  (normalize_header_names h).filter (fun p => decide (p.1 ∈ safeHeaders))

/-! Cache model. -/

/-- A row of the `user_headers` table. `expires` is a POSIX timestamp in whole
seconds (`_timestamp` truncates sub-second information). -/
structure CacheRow where
  py_version : Nat
  key : HName
  value : String
  expires : Nat
  deriving DecidableEq

/-- The persistent cache: the rows of the `user_headers` table, in rowid
order. -/
structure CacheState where
  rows : List CacheRow
  deriving DecidableEq

/-- The constant cache_timeout = datetime.timedelta(days=7), in seconds. -/
def cache_timeout : Nat := 7 * 24 * 60 * 60

/-- Whether a new row conflicts with an existing one under the unique index
`(py_version, key)` with `key COLLATE NOCASE`. -/
def rowConflict (r e : CacheRow) : Prop :=
  r.py_version = e.py_version ∧ pyLower r.key = pyLower e.key

instance (r e : CacheRow) : Decidable (rowConflict r e) := by
  unfold rowConflict; infer_instance

/-- One INSERT OR REPLACE: any row violating the unique index
`(py_version, key NOCASE)` is deleted, then the new row is appended. -/
def upsertRow (rows : List CacheRow) (e : CacheRow) : List CacheRow :=
  rows.filter (fun r => decide (¬ rowConflict r e)) ++ [e]

/-- The method `UserHeaderGetter._save_cache`: every `(key, value)` pair of the header
set is upserted under the current Python major version with expiry
`now + cache_timeout`. -/
def save_cache (major now : Nat) (st : CacheState) (headers : HeaderSet) : CacheState :=
  ⟨headers.foldl (fun rows p => upsertRow rows ⟨major, p.1, p.2, now + cache_timeout⟩) st.rows⟩

/-- The query SELECT key, value FROM user_headers WHERE py_version = ?. -/
def rowsFor (st : CacheState) (v : Nat) : List (HName × String) :=
  (st.rows.filter (fun r => decide (r.py_version = v))).map (fun r => (r.key, r.value))

/-- The method `UserHeaderGetter._get_cache`: try the current major version, then fall
back to Python 3; a nonempty row list is returned as `dict(headers)`. -/
def get_cache (major : Nat) (st : CacheState) : Option HeaderSet :=
  if rowsFor st major ≠ [] then some (dictOfPairs (rowsFor st major))
  else if rowsFor st 3 ≠ [] then some (dictOfPairs (rowsFor st 3))
  else none

/-- The method `UserHeaderGetter.clear_expired`:
`DELETE FROM user_headers WHERE expires < now`. -/
def clear_expired (now : Nat) (st : CacheState) : CacheState :=
  ⟨st.rows.filter (fun r => decide (¬ r.expires < now))⟩

/-! Orchestrator model.

The method `_get_uncached` performs network and subprocess I/O; its result (the header
set harvested from the live browser probe) is passed in as the `uncached`
argument.  `major` is `sys.version_info.major` and `now` the current POSIX
time in seconds. -/

/-- The header set bound to the local variable `headers` in `get_all` just
before `_save_cache`: the cached set if one was read and is truthy
(non-empty), otherwise the live-probe result
(`headers = self._get_cache() if not skip_cache else {}` followed by
`headers = headers or self._get_uncached()`). -/
def obtained_headers (major : Nat) (skip_cache : Bool) (uncached : HeaderSet)
    (st : CacheState) : HeaderSet :=
  match (if skip_cache then none else get_cache major st) with
  | some h => if h = [] then uncached else h
  | none => uncached

/-- The no-override branch of `get_all`: read the cache, then purge expired
rows, then fall back to the live probe if nothing usable was read, then save
the obtained set, and return it normalized and filtered. -/
def get_all_no_override (major now : Nat) (skip_cache : Bool) (uncached : HeaderSet)
    (st : CacheState) : HeaderSet × CacheState :=
  let headers := obtained_headers major skip_cache uncached st
  (get_all_filter headers, save_cache major now (clear_expired now st) headers)

/-- The method `UserHeaderGetter.get_all`.  The Python guard is `if not headers:`, so
both `None` (no override) and an empty override dict take the cache branch;
a non-empty override is normalized and filtered directly. -/
def get_all (major now : Nat) (override : Option HeaderSet) (skip_cache : Bool)
    (uncached : HeaderSet) (st : CacheState) : HeaderSet × CacheState :=
  match override with
  | none => get_all_no_override major now skip_cache uncached st
  | some h =>
      if h = [] then get_all_no_override major now skip_cache uncached st
      else (get_all_filter h, st)

/-- The method `UserHeaderGetter.get_safe`:
`headers = headers or self.get_all(skip_cache=skip_cache)` followed by the
safe-header filter. -/
def get_safe (major now : Nat) (override : Option HeaderSet) (skip_cache : Bool)
    (uncached : HeaderSet) (st : CacheState) : HeaderSet × CacheState :=
  let unwrapped :=
    match override with
    | none => get_all major now none skip_cache uncached st
    | some h =>
        if h = [] then get_all major now none skip_cache uncached st
        else (h, st)
  (get_safe_filter unwrapped.1, unwrapped.2)

/-! Port allocation (the bind loop of `_get_uncached`). -/

/-- The outcome of one attempt to bind the probe HTTP server to a port. -/
inductive BindOutcome where
  | ok
  | err (errno : Nat)
  deriving DecidableEq

/-- The port-allocation loop of `_get_uncached`: draw random ports from
`picks`; a bind failure with `errno == 98` (address in use) is retried with
the next pick, any other `socket.error` is raised, a successful bind ends
the loop.  `none` models fuel exhaustion (the Python loop has no retry
cap). -/
def allocate_port (bind : Nat → BindOutcome) : List Nat → Option (Except Nat Nat)
  | [] => none
  | p :: ps =>
      match bind p with
      | .ok => some (Except.ok p)
      | .err e => if e = 98 then allocate_port bind ps else some (Except.error e)

/-! Delay randomization. -/

/-- The function randomize_delay: `base_delay * random.uniform(0.5, 1.5)`, with the
uniform draw `u` made explicit and real arithmetic modelled over `ℚ`. -/
def randomize_delay (base_delay u : ℚ) : ℚ := base_delay * u

/-! Character-level facts about the ASCII case transforms. -/

theorem pyLowerChar_pyLowerChar (c : Nat) : pyLowerChar (pyLowerChar c) = pyLowerChar c := by
  unfold pyLowerChar; split_ifs <;> omega

theorem pyLowerChar_pyUpperChar (c : Nat) : pyLowerChar (pyUpperChar c) = pyLowerChar c := by
  unfold pyLowerChar pyUpperChar; split_ifs <;> omega

theorem pyUpperChar_pyUpperChar (c : Nat) : pyUpperChar (pyUpperChar c) = pyUpperChar c := by
  unfold pyUpperChar; split_ifs <;> omega

theorem isCasedChar_pyLowerChar (c : Nat) : isCasedChar (pyLowerChar c) = isCasedChar c := by
  unfold isCasedChar pyLowerChar
  split_ifs with h
  · rw [decide_eq_decide]; omega
  · rfl

theorem isCasedChar_pyUpperChar (c : Nat) : isCasedChar (pyUpperChar c) = isCasedChar c := by
  unfold isCasedChar pyUpperChar
  split_ifs with h
  · rw [decide_eq_decide]; omega
  · rfl

/-! String-level facts: lowering is insensitive to prior titlecasing, and
titlecasing is idempotent. -/

theorem pyLowerChar_pyTitleChar (b : Bool) (c : Nat) :
    pyLowerChar (pyTitleChar b c) = pyLowerChar c := by
  cases b with
  | true => exact pyLowerChar_pyLowerChar c
  | false => exact pyLowerChar_pyUpperChar c

theorem isCasedChar_pyTitleChar (b : Bool) (c : Nat) :
    isCasedChar (pyTitleChar b c) = isCasedChar c := by
  cases b with
  | true => exact isCasedChar_pyLowerChar c
  | false => exact isCasedChar_pyUpperChar c

theorem pyTitleChar_pyTitleChar (b : Bool) (c : Nat) :
    pyTitleChar b (pyTitleChar b c) = pyTitleChar b c := by
  cases b with
  | true => exact pyLowerChar_pyLowerChar c
  | false => exact pyUpperChar_pyUpperChar c

theorem pyLower_pyTitleAux (b : Bool) (s : HName) :
    pyLower (pyTitleAux b s) = pyLower s := by
  induction s generalizing b with
  | nil => rfl
  | cons c rest ih =>
      simp only [pyTitleAux, pyLower, List.map_cons] at ih ⊢
      rw [pyLowerChar_pyTitleChar, ih]

theorem pyTitleAux_idem (b : Bool) (s : HName) :
    pyTitleAux b (pyTitleAux b s) = pyTitleAux b s := by
  induction s generalizing b with
  | nil => rfl
  | cons c rest ih =>
      simp only [pyTitleAux, isCasedChar_pyTitleChar, pyTitleChar_pyTitleChar,
        List.cons.injEq, true_and]
      exact ih (isCasedChar c)

theorem pyLower_pyTitle (s : HName) : pyLower (pyTitle s) = pyLower s :=
  pyLower_pyTitleAux false s

theorem pyTitle_idem (s : HName) : pyTitle (pyTitle s) = pyTitle s :=
  pyTitleAux_idem false s

/-! Facts about the canonical-capitalization lookup. -/

theorem alookup_map_lower (L : List HName) (q c : HName)
    (h : alookup (L.map (fun x => (pyLower x, x))) q = some c) : pyLower c = q := by
  induction L with
  | nil => simp [alookup] at h
  | cons x rest ih =>
      simp only [List.map_cons, alookup] at h
      split at h
      · cases h; assumption
      · exact ih h

/-- No two entries of `known_headers` agree case-insensitively, so the dict
`{x.lower(): x}` built by `normalize_header_names` is a well-defined mapping
regardless of Python set-iteration order. -/
theorem knownHeaders_lower_nodup : (knownHeaders.map pyLower).Nodup := by decide

/-- Normalization of a single header name is idempotent. -/
theorem normKey_idem (k : HName) : normKey (normKey k) = normKey k := by
  unfold normKey
  cases hk : alookup knownLowerMap (pyLower k) with
  | some c =>
      have hc : pyLower c = pyLower k := alookup_map_lower knownHeaders _ c hk
      rw [hc, hk]
  | none =>
      rw [pyLower_pyTitle, hk, pyTitle_idem]

/-! Facts about the Python-dict model. -/

theorem keysOf_append (m₁ m₂ : HeaderSet) : keysOf (m₁ ++ m₂) = keysOf m₁ ++ keysOf m₂ :=
  List.map_append _ _ _

theorem keysOf_dictInsert (m : HeaderSet) (k : HName) (v : String) :
    keysOf (dictInsert m k v) = if k ∈ keysOf m then keysOf m else keysOf m ++ [k] := by
  unfold dictInsert
  split_ifs with h
  · simp only [keysOf, List.map_map]
    refine List.map_congr_left ?_
    intro p _
    by_cases hp : p.1 = k <;> simp [hp]
  · simp [keysOf]

theorem nodup_keysOf_dictInsert (m : HeaderSet) (k : HName) (v : String)
    (h : (keysOf m).Nodup) : (keysOf (dictInsert m k v)).Nodup := by
  rw [keysOf_dictInsert]
  split_ifs with hk
  · exact h
  · simpa using List.Nodup.append h (List.nodup_singleton k) (by simpa using hk)

theorem mem_keysOf_foldl_dictInsert (l : List (HName × String)) (m : HeaderSet) (x : HName)
    (h : x ∈ keysOf (l.foldl (fun acc p => dictInsert acc p.1 p.2) m)) :
    x ∈ keysOf m ∨ x ∈ l.map Prod.fst := by
  induction l generalizing m with
  | nil => exact Or.inl h
  | cons p rest ih =>
      simp only [List.foldl_cons] at h
      rcases ih (dictInsert m p.1 p.2) h with h' | h'
      · rw [keysOf_dictInsert] at h'
        split_ifs at h' with hk
        · exact Or.inl h'
        · rcases List.mem_append.1 h' with h'' | h''
          · exact Or.inl h''
          · simp only [List.mem_singleton] at h''
            exact Or.inr (by simp [h''])
      · exact Or.inr (List.mem_cons_of_mem _ h')

theorem nodup_keysOf_foldl_dictInsert (l : List (HName × String)) (m : HeaderSet)
    (h : (keysOf m).Nodup) :
    (keysOf (l.foldl (fun acc p => dictInsert acc p.1 p.2) m)).Nodup := by
  induction l generalizing m with
  | nil => exact h
  | cons p rest ih =>
      simp only [List.foldl_cons]
      exact ih _ (nodup_keysOf_dictInsert m p.1 p.2 h)

/-- The keys of any dict built from pairs are distinct. -/
theorem nodup_keysOf_dictOfPairs (l : List (HName × String)) :
    (keysOf (dictOfPairs l)).Nodup :=
  nodup_keysOf_foldl_dictInsert l [] (by simp [keysOf])

theorem mem_keysOf_dictOfPairs (l : List (HName × String)) (x : HName)
    (h : x ∈ keysOf (dictOfPairs l)) : x ∈ l.map Prod.fst := by
  rcases mem_keysOf_foldl_dictInsert l [] x h with h' | h'
  · simp [keysOf] at h'
  · exact h'

theorem foldl_dictInsert_eq_append (l : List (HName × String)) (m : HeaderSet)
    (h : (keysOf m ++ l.map Prod.fst).Nodup) :
    l.foldl (fun acc p => dictInsert acc p.1 p.2) m = m ++ l := by
  induction l generalizing m with
  | nil => simp
  | cons p rest ih =>
      simp only [List.map_cons] at h
      have hk : p.1 ∉ keysOf m := by
        intro hmem
        exact (List.disjoint_of_nodup_append h) hmem (by simp)
      have hins : dictInsert m p.1 p.2 = m ++ [(p.1, p.2)] := by
        unfold dictInsert
        rw [if_neg hk]
      simp only [List.foldl_cons, hins]
      have hkeys : keysOf (m ++ [(p.1, p.2)]) = keysOf m ++ [p.1] := by
        simp [keysOf]
      have h' : (keysOf (m ++ [(p.1, p.2)]) ++ rest.map Prod.fst).Nodup := by
        rw [hkeys, List.append_assoc]
        have := h
        rw [show p.1 :: rest.map Prod.fst = [p.1] ++ rest.map Prod.fst from rfl] at this
        rwa [← List.append_assoc] at this

      rw [ih _ h', List.append_assoc]
      rfl

/-- A list of pairs with distinct keys is already a dict. -/
theorem dictOfPairs_eq_self (l : List (HName × String)) (h : (l.map Prod.fst).Nodup) :
    dictOfPairs l = l := by
  have := foldl_dictInsert_eq_append l [] (by simpa using h)
  simpa [dictOfPairs] using this

/-! Facts about normalization of whole header sets. -/

/-- Every key of a normalized header set is a fixed point of `normKey`. -/
theorem normKey_fixed_of_mem_normalize (h : HeaderSet) (x : HName)
    (hx : x ∈ keysOf (normalize_header_names h)) : normKey x = x := by
  have hx' := mem_keysOf_dictOfPairs _ x hx
  simp only [List.map_map] at hx'
  rcases List.mem_map.1 hx' with ⟨p, _, hp⟩
  simp only [Function.comp] at hp
  rw [← hp]
  exact normKey_idem p.1

/-- C5: Header-name normalization is idempotent: for every HeaderSet `h`,
`normalize_header_names (normalize_header_names h) = normalize_header_names h`. -/
theorem normalize_header_names_idem (h : HeaderSet) :
    normalize_header_names (normalize_header_names h) = normalize_header_names h := by
  set D := normalize_header_names h with hD
  have hmap : D.map (fun p => (normKey p.1, p.2)) = D := by
    have : D.map (fun p => (normKey p.1, p.2)) = D.map id := by
      refine List.map_congr_left ?_
      intro p hp
      have hkey : p.1 ∈ keysOf D := List.mem_map_of_mem Prod.fst hp
      rw [normKey_fixed_of_mem_normalize h p.1 (hD ▸ hkey)]
      rfl
    rw [this, List.map_id]
  have hnodup : (D.map Prod.fst).Nodup := hD ▸ nodup_keysOf_dictOfPairs _
  show dictOfPairs (D.map (fun p => (normKey p.1, p.2))) = D
  rw [hmap, dictOfPairs_eq_self D hnodup]

/-! Facts about the cache write path. -/

/-- A row conflicting with none of the written pairs survives the whole
upsert fold of `_save_cache`. -/
theorem mem_foldl_upsertRow_of_mem (major exp : Nat) (H : HeaderSet)
    (rows : List CacheRow) (r : CacheRow) (hr : r ∈ rows)
    (hnc : ∀ p ∈ H, ¬ rowConflict r ⟨major, p.1, p.2, exp⟩) :
    r ∈ H.foldl (fun rs p => upsertRow rs ⟨major, p.1, p.2, exp⟩) rows := by
  induction H generalizing rows with
  | nil => exact hr
  | cons q rest ih =>
      simp only [List.foldl_cons]
      refine ih _ ?_ (fun p hp => hnc p (List.mem_cons_of_mem q hp))
      unfold upsertRow
      refine List.mem_append_left _ (List.mem_filter.2 ⟨hr, ?_⟩)
      simpa using hnc q (List.mem_cons_self q rest)

/-- Each written pair ends up as a row of the cache, provided the written
keys are pairwise distinct case-insensitively. -/
theorem foldl_upsertRow_mem (major exp : Nat) (H : HeaderSet) (rows : List CacheRow)
    (hdist : H.Pairwise (fun p q => pyLower p.1 ≠ pyLower q.1)) (p : HName × String)
    (hp : p ∈ H) :
    (⟨major, p.1, p.2, exp⟩ : CacheRow) ∈
      H.foldl (fun rs q => upsertRow rs ⟨major, q.1, q.2, exp⟩) rows := by
  induction H generalizing rows with
  | nil => cases hp
  | cons q rest ih =>
      rw [List.pairwise_cons] at hdist
      simp only [List.foldl_cons]
      rcases List.mem_cons.1 hp with rfl | hp'
      · refine mem_foldl_upsertRow_of_mem major exp rest _ _ ?_ ?_
        · exact List.mem_append_right _ (List.mem_singleton.2 rfl)
        · intro x hx hcon
          exact hdist.1 x hx hcon.2
      · exact ih _ hdist.2 hp'

/-- A helper for `mem_save_cache_cases`: rows after the upsert fold either
pre-existed or carry the written expiry. -/
theorem mem_foldl_upsertRow_cases (major exp : Nat) (H : HeaderSet) :
    ∀ (rows : List CacheRow) (r : CacheRow),
      r ∈ H.foldl (fun rs p => upsertRow rs ⟨major, p.1, p.2, exp⟩) rows →
      r ∈ rows ∨ r.expires = exp := by
  induction H with
  | nil => exact fun rows r h => Or.inl h
  | cons q rest ih =>
      intro rows r h
      simp only [List.foldl_cons] at h
      rcases ih _ r h with h' | h'
      · unfold upsertRow at h'
        rcases List.mem_append.1 h' with h'' | h''
        · exact Or.inl (List.mem_filter.1 h'').1
        · rw [List.mem_singleton] at h''
          subst h''
          exact Or.inr rfl
      · exact Or.inr h'

/-- Every row after a `_save_cache` either was already present or is one of
the freshly written rows with the refreshed expiry. -/
theorem mem_save_cache_cases (major now : Nat) (st : CacheState) (H : HeaderSet)
    (r : CacheRow) (hr : r ∈ (save_cache major now st H).rows) :
    r ∈ st.rows ∨ r.expires = now + cache_timeout :=
  mem_foldl_upsertRow_cases major (now + cache_timeout) H st.rows r hr

/-- Writing pairwise case-insensitively distinct pairs to rows none of which
conflicts with them just appends the freshly built rows. -/
theorem foldl_upsertRow_eq_append (major exp : Nat) (H : HeaderSet) (rows : List CacheRow)
    (hdisj : ∀ r ∈ rows, ∀ p ∈ H, ¬ rowConflict r ⟨major, p.1, p.2, exp⟩)
    (hdist : H.Pairwise (fun p q => pyLower p.1 ≠ pyLower q.1)) :
    H.foldl (fun rs p => upsertRow rs ⟨major, p.1, p.2, exp⟩) rows
      = rows ++ H.map (fun p => ⟨major, p.1, p.2, exp⟩) := by
  induction H generalizing rows with
  | nil => simp
  | cons q rest ih =>
      rw [List.pairwise_cons] at hdist
      have hq : upsertRow rows ⟨major, q.1, q.2, exp⟩ = rows ++ [⟨major, q.1, q.2, exp⟩] := by
        unfold upsertRow
        congr 1
        refine List.filter_eq_self.2 ?_
        intro r hr
        simpa using hdisj r hr q (List.mem_cons_self q rest)
      simp only [List.foldl_cons, hq]
      rw [ih _ ?_ hdist.2]
      · simp
      · intro r hr p hp hcon
        rcases List.mem_append.1 hr with h' | h'
        · exact hdisj r h' p (List.mem_cons_of_mem q hp) hcon
        · rw [List.mem_singleton] at h'
          subst h'
          exact hdist.1 p hp hcon.2

/-- Saving into an empty cache produces exactly one row per written pair. -/
theorem save_cache_empty (major now : Nat) (H : HeaderSet)
    (hdist : H.Pairwise (fun p q => pyLower p.1 ≠ pyLower q.1)) :
    save_cache major now ⟨[]⟩ H
      = ⟨H.map (fun p => ⟨major, p.1, p.2, now + cache_timeout⟩)⟩ := by
  unfold save_cache
  rw [foldl_upsertRow_eq_append major (now + cache_timeout) H [] (by simp) hdist]
  rfl

/-- Reading back the rows of freshly written pairs recovers the pairs. -/
theorem rowsFor_map_mk (major exp : Nat) (H : HeaderSet) :
    rowsFor ⟨H.map (fun p => ⟨major, p.1, p.2, exp⟩)⟩ major = H := by
  induction H with
  | nil => rfl
  | cons p rest ih =>
      simpa [rowsFor, List.filter_cons] using ih

/-- Pairwise case-insensitively distinct keys are in particular distinct. -/
theorem keys_nodup_of_pairwise (H : HeaderSet)
    (hdist : H.Pairwise (fun p q => pyLower p.1 ≠ pyLower q.1)) :
    (H.map Prod.fst).Nodup := by
  show (H.map Prod.fst).Pairwise (· ≠ ·)
  refine List.pairwise_map.2 (hdist.imp ?_)
  intro a b h heq
  exact h (by rw [heq])

/-- C4: writing a HeaderSet whose keys are pairwise distinct under
case-insensitive comparison to the (fresh) cache and reading it back under
the same version tag, at any time `readTime` before TTL expiry, yields the
same key-to-value mapping — whatever key casing was used on the write. -/
theorem cache_round_trip (major now readTime : Nat) (H : HeaderSet)
    (hdist : H.Pairwise (fun p q => pyLower p.1 ≠ pyLower q.1))
    (hne : H ≠ []) (hread : readTime ≤ now + cache_timeout) :
    get_cache major (clear_expired readTime (save_cache major now ⟨[]⟩ H)) = some H := by
  rw [save_cache_empty major now H hdist]
  have hclear :
      clear_expired readTime
        (⟨H.map (fun p => ⟨major, p.1, p.2, now + cache_timeout⟩)⟩ : CacheState)
      = ⟨H.map (fun p => ⟨major, p.1, p.2, now + cache_timeout⟩)⟩ := by
    unfold clear_expired
    congr 1
    refine List.filter_eq_self.2 ?_
    intro r hr
    rcases List.mem_map.1 hr with ⟨p, _, hp⟩
    subst hp
    simpa using Nat.not_lt.2 hread
  rw [hclear]
  unfold get_cache
  rw [rowsFor_map_mk major (now + cache_timeout) H, if_pos hne,
    dictOfPairs_eq_self H (keys_nodup_of_pairwise H hdist)]

/-- C6: a cache write never deletes or alters rows whose version tag differs
or whose key is case-insensitively absent from the written HeaderSet; in
particular writing `Accept: 1` and then `User-Agent: 2` under one version
tag leaves both retrievable. -/
theorem save_cache_merge_not_shrink :
    (∀ (major now : Nat) (st : CacheState) (H : HeaderSet) (r : CacheRow),
      r ∈ st.rows →
      (r.py_version ≠ major ∨ ∀ k ∈ keysOf H, pyLower k ≠ pyLower r.key) →
      r ∈ (save_cache major now st H).rows) ∧
    get_cache 3 (save_cache 3 0 (save_cache 3 0 ⟨[]⟩ [(S "Accept", "1")])
        [(S "User-Agent", "2")]) =
      some [(S "Accept", "1"), (S "User-Agent", "2")] := by
  constructor
  · intro major now st H r hr hcond
    refine mem_foldl_upsertRow_of_mem major (now + cache_timeout) H st.rows r hr ?_
    intro p hp hcon
    rcases hcond with h | h
    · exact h hcon.1
    · exact h p.1 (List.mem_map_of_mem Prod.fst hp) hcon.2.symm
  · decide

/-- C9: on every `get_all` call without an override, the obtained header
set — from cache hit or live probe alike — is written back: each of its
pairs becomes a row under the current Python major version with expiry
refreshed to `now` plus seven days. -/
theorem get_all_writes_back (major now : Nat) (skip_cache : Bool)
    (uncached : HeaderSet) (st : CacheState)
    (hdist : (obtained_headers major skip_cache uncached st).Pairwise
      (fun p q => pyLower p.1 ≠ pyLower q.1)) :
    ∀ p ∈ obtained_headers major skip_cache uncached st,
      (⟨major, p.1, p.2, now + cache_timeout⟩ : CacheRow) ∈
        (get_all major now none skip_cache uncached st).2.rows := by
  intro p hp
  show (⟨major, p.1, p.2, now + cache_timeout⟩ : CacheRow) ∈
    (save_cache major now (clear_expired now st)
      (obtained_headers major skip_cache uncached st)).rows
  exact foldl_upsertRow_mem major (now + cache_timeout) _ _ hdist p hp

/-- C3, counterexample: with a single cache row that is already expired at
call time (`expires = 10 < now = 50`), `get_all` still returns the header
set derived from that expired row, because `_get_cache` runs before
`clear_expired`. -/
theorem get_all_expired_read_cex :
    ((⟨[⟨3, S "User-Agent", "old", 10⟩]⟩ : CacheState).rows.all
        (fun r => decide (r.expires < 50))) = true ∧
    (get_all 3 50 none false [(S "User-Agent", "fresh")]
        ⟨[⟨3, S "User-Agent", "old", 10⟩]⟩).1 = [(S "User-Agent", "old")] := by
  constructor
  · decide
  · decide

/-- C3, amended: on every cache-consulting `get_all` call the expired rows
are purged during the call — after the cache read, before the write-back —
so the cache state left behind has no row that was expired at call time
(though the returned set may still derive from one, see the
counterexample). -/
theorem get_all_purges_expired_state (major now : Nat) (skip_cache : Bool)
    (uncached : HeaderSet) (st : CacheState) :
    ∀ r ∈ (get_all major now none skip_cache uncached st).2.rows, now ≤ r.expires := by
  intro r hr
  have hr' : r ∈ (save_cache major now (clear_expired now st)
      (obtained_headers major skip_cache uncached st)).rows := hr
  rcases mem_save_cache_cases _ _ _ _ r hr' with h | h
  · have h2 := (List.mem_filter.1 h).2
    simp only [decide_eq_true_eq] at h2
    omega
  · omega

/-- C2, counterexample: an empty override dict is falsy in Python, so
`get_all({})` takes the cache branch rather than filtering the override
directly: with a non-empty cache it returns the cached headers and rewrites
the cache state. -/
theorem get_all_empty_override_cex :
    get_all 3 0 (some []) false [] ⟨[⟨3, S "User-Agent", "ua", 100⟩]⟩ ≠
      (get_all_filter [], ⟨[⟨3, S "User-Agent", "ua", 100⟩]⟩) := by
  decide

/-- C2, amended: for every non-empty supplied override, `get_all` returns
normalize-then-filter of that override directly and the cache state is
untouched (and, the result being the same for every `uncached` argument, no
live probe is consulted). -/
theorem get_all_override_bypasses_cache (major now : Nat) (h : HeaderSet)
    (hne : h ≠ []) (skip_cache : Bool) (uncached : HeaderSet) (st : CacheState) :
    get_all major now (some h) skip_cache uncached st = (get_all_filter h, st) := by
  simp only [get_all]
  rw [if_neg hne]

/-- Whatever path `get_all` takes, its returned mapping is the
normalize-and-drop-unsafe filter of some header set. -/
theorem get_all_fst_cases (major now : Nat) (override : Option HeaderSet)
    (skip_cache : Bool) (uncached : HeaderSet) (st : CacheState) :
    ∃ Y, (get_all major now override skip_cache uncached st).1 = get_all_filter Y := by
  cases override with
  | none => exact ⟨_, rfl⟩
  | some h =>
      by_cases hne : h = []
      · subst hne
        exact ⟨_, rfl⟩
      · refine ⟨h, ?_⟩
        simp only [get_all]
        rw [if_neg hne]

/-- Members of a filtered-normalized set have canonical keys outside the
blocked table. -/
theorem mem_get_all_filter (X : HeaderSet) (p : HName × String)
    (hp : p ∈ get_all_filter X) : normKey p.1 ∉ unsafeHeaders := by
  have hmem := List.mem_filter.1 hp
  have h2 : p.1 ∉ unsafeHeaders := by simpa using hmem.2
  have h1 : normKey p.1 = p.1 :=
    normKey_fixed_of_mem_normalize X p.1 (List.mem_map_of_mem Prod.fst hmem.1)
  rw [h1]
  exact h2

/-- C1: on every path (override, cache hit, or live probe) the mapping
returned by `get_all` contains no key that normalizes into the unsafe-header
table; and on the override `foo: Bar, cookie: secret` it returns exactly
`Foo: Bar`, dropping `cookie` and title-casing `foo`. -/
theorem get_all_never_unsafe :
    (∀ (major now : Nat) (override : Option HeaderSet) (skip_cache : Bool)
      (uncached : HeaderSet) (st : CacheState),
      ∀ p ∈ (get_all major now override skip_cache uncached st).1,
        normKey p.1 ∉ unsafeHeaders) ∧
    get_all 3 0 (some [(S "foo", "Bar"), (S "cookie", "secret")]) false [] ⟨[]⟩ =
      ([(S "Foo", "Bar")], ⟨[]⟩) := by
  constructor
  · intro major now override skip_cache uncached st p hp
    obtain ⟨Y, hY⟩ := get_all_fst_cases major now override skip_cache uncached st
    rw [hY] at hp
    exact mem_get_all_filter Y p hp
  · decide

/-- Members of a safe-filtered set have keys inside the safe table. -/
theorem mem_get_safe_filter (X : HeaderSet) (p : HName × String)
    (hp : p ∈ get_safe_filter X) : p.1 ∈ safeHeaders := by
  simpa using (List.mem_filter.1 hp).2

/-- C8: every key of the mapping returned by `get_safe` is a member of
`safe_headers`; headers outside it, unknown ones included, are dropped. -/
theorem get_safe_only_safe (major now : Nat) (override : Option HeaderSet)
    (skip_cache : Bool) (uncached : HeaderSet) (st : CacheState) :
    ∀ p ∈ (get_safe major now override skip_cache uncached st).1,
      p.1 ∈ safeHeaders := by
  intro p hp
  exact mem_get_safe_filter _ p hp

/-- C7: in the port-allocation loop of `_get_uncached`, a bind failing with
errno 98 (address in use) is silently retried with the next random port; a
bind failing with any other errno is raised immediately, without retry; and
no surfaced error ever carries errno 98. -/
theorem allocate_port_retry_policy (bind : Nat → BindOutcome) (p : Nat)
    (ps : List Nat) (e : Nat) :
    (bind p = BindOutcome.err 98 →
      allocate_port bind (p :: ps) = allocate_port bind ps) ∧
    (bind p = BindOutcome.err e → e ≠ 98 →
      allocate_port bind (p :: ps) = some (Except.error e)) ∧
    (∀ (picks : List Nat) (e' : Nat),
      allocate_port bind picks = some (Except.error e') → e' ≠ 98) := by
  refine ⟨?_, ?_, ?_⟩
  · intro hb
    simp [allocate_port, hb]
  · intro hb hne
    simp [allocate_port, hb, hne]
  · intro picks
    induction picks with
    | nil => intro e' h; cases h
    | cons q rest ih =>
        intro e' h
        cases hq : bind q with
        | ok => simp [allocate_port, hq] at h
        | err e'' =>
            simp only [allocate_port, hq] at h
            by_cases h98 : e'' = 98
            · rw [if_pos h98] at h
              exact ih e' h
            · rw [if_neg h98] at h
              cases h
              exact h98

/-- C10: `randomize_delay(4)` with a uniform draw anywhere in `[0.5, 1.5]`
always lies in `[2, 6]`; in general the function returns the base delay
multiplied by the drawn factor; and the mean over any number of equally
spaced draws from `[0.5, 1.5]` (the expectation of the uniform draw) is
exactly 4. -/
theorem randomize_delay_spec :
    (∀ u : ℚ, 1/2 ≤ u → u ≤ 3/2 →
      2 ≤ randomize_delay 4 u ∧ randomize_delay 4 u ≤ 6) ∧
    (∀ b u : ℚ, randomize_delay b u = b * u) ∧
    (∀ n : ℕ, 0 < n →
      (∑ i in Finset.range n, randomize_delay 4 (1/2 + ((i : ℚ) + 1/2) / n)) / n = 4) := by
  refine ⟨?_, fun b u => rfl, ?_⟩
  · intro u h1 h2
    unfold randomize_delay
    constructor <;> nlinarith
  · intro n hn
    have hne : (n : ℚ) ≠ 0 := Nat.cast_ne_zero.2 hn.ne'
    have hsum : (∑ i in Finset.range n, (i : ℚ)) = n * (n - 1) / 2 := by
      have h2 := congrArg (fun m : ℕ => (m : ℚ)) (Finset.sum_range_id_mul_two n)
      simp only at h2
      push_cast [Nat.cast_sub hn] at h2
      linarith
    unfold randomize_delay
    have hexp : ∀ i ∈ Finset.range n,
        (4 : ℚ) * (1/2 + ((i : ℚ) + 1/2) / n) = 2 + (4 * (i : ℚ) + 2) / n := by
      intro i _
      field_simp
      ring
    rw [Finset.sum_congr rfl hexp]
    rw [Finset.sum_add_distrib, Finset.sum_const, Finset.card_range]
    rw [← Finset.sum_div, Finset.sum_add_distrib, ← Finset.mul_sum, Finset.sum_const,
      Finset.card_range, hsum]
    field_simp
    ring

/-! Concrete witnesses instantiating the theorems above. -/

/-- Witness for C1 at the concrete override of the specification. -/
theorem get_all_never_unsafe_witness : normKey (S "Foo") ∉ unsafeHeaders :=
  get_all_never_unsafe.1 3 0 (some [(S "foo", "Bar"), (S "cookie", "secret")])
    false [] ⟨[]⟩ (S "Foo", "Bar") (by decide)

/-- Witness for C2 (amended) on a one-entry override. -/
theorem get_all_override_bypasses_cache_witness :
    get_all 3 0 (some [(S "foo", "Bar")]) true [] ⟨[]⟩ =
      (get_all_filter [(S "foo", "Bar")], ⟨[]⟩) :=
  get_all_override_bypasses_cache 3 0 [(S "foo", "Bar")] (by decide) true [] ⟨[]⟩

/-- Witness for C3 (amended): the post-call cache state of the
counterexample scenario holds only the refreshed row. -/
theorem get_all_purges_expired_state_witness :
    50 ≤ (⟨3, S "User-Agent", "old", 604850⟩ : CacheRow).expires :=
  get_all_purges_expired_state 3 50 false [] ⟨[⟨3, S "User-Agent", "old", 10⟩]⟩
    ⟨3, S "User-Agent", "old", 604850⟩ (by decide)

/-- Witness for C4 on a one-entry header set with mixed-case key. -/
theorem cache_round_trip_witness :
    get_cache 3 (clear_expired 100 (save_cache 3 0 ⟨[]⟩ [(S "fOo", "1")])) =
      some [(S "fOo", "1")] :=
  cache_round_trip 3 0 100 [(S "fOo", "1")] (by simp) (by decide) (by decide)

/-- Witness for C6: the `Accept` row survives the later `User-Agent` write. -/
theorem save_cache_merge_not_shrink_witness :
    (⟨3, S "Accept", "1", 604800⟩ : CacheRow) ∈
      (save_cache 3 0 (save_cache 3 0 ⟨[]⟩ [(S "Accept", "1")])
        [(S "User-Agent", "2")]).rows :=
  save_cache_merge_not_shrink.1 3 0 (save_cache 3 0 ⟨[]⟩ [(S "Accept", "1")])
    [(S "User-Agent", "2")] ⟨3, S "Accept", "1", 604800⟩ (by decide)
    (Or.inr (by decide))

/-- A concrete bind oracle: port 5000 is taken, every other port is free. -/
def bindEx : Nat → BindOutcome :=
  fun q => if q = 5000 then BindOutcome.err 98 else BindOutcome.ok

/-- Witness for C7: the collision on port 5000 is retried silently. -/
theorem allocate_port_retry_policy_witness :
    allocate_port bindEx (5000 :: [6000]) = allocate_port bindEx [6000] :=
  (allocate_port_retry_policy bindEx 5000 [6000] 98).1 (by decide)

/-- Witness for C8 on a lowercase `user-agent` override. -/
theorem get_safe_only_safe_witness : S "User-Agent" ∈ safeHeaders :=
  get_safe_only_safe 3 0 (some [(S "user-agent", "x")]) false [] ⟨[]⟩
    (S "User-Agent", "x") (by decide)

/-- Witness for C9: a live-probe result is written back with the seven-day
expiry. -/
theorem get_all_writes_back_witness :
    (⟨3, S "User-Agent", "ua", 604800⟩ : CacheRow) ∈
      (get_all 3 0 none true [(S "User-Agent", "ua")] ⟨[]⟩).2.rows :=
  get_all_writes_back 3 0 true [(S "User-Agent", "ua")] ⟨[]⟩ (by decide)
    (S "User-Agent", "ua") (by decide)

/-- Witness for C10 at the central draw and a two-point sample. -/
theorem randomize_delay_spec_witness :
    (2 ≤ randomize_delay 4 1 ∧ randomize_delay 4 1 ≤ 6) ∧
    (∑ i in Finset.range 2, randomize_delay 4 (1/2 + ((i : ℚ) + 1/2) / 2)) / 2 = 4 :=
  ⟨randomize_delay_spec.1 1 (by norm_num) (by norm_num),
    randomize_delay_spec.2.2 2 (by norm_num)⟩

end GetUserHeaders
